import Mathlib

/-!
Verification of the media-to-message reconciliation engine
(phases/phase1 of the repository: media_id_extractor.py, timestamp_matcher.py,
mp4_processor.py, orchestrator.py).

Filenames and identifiers are modelled as lists of characters; Python
dictionaries keyed by strings are modelled as association lists with
overwrite-on-insert; the filesystem boundary (extract_mp4_timestamp) is
modelled by passing each file together with the Option Int its extraction
would return.
-/

namespace Phase1

/-! ### media_id_extractor.py -/

/-- The character class of the regex bracket [A-F0-9-] used in
media_id_extractor.py for the id runs after the media, overlay and
media-zip markers. -/
def isIdChar (c : Char) : Bool :=
  decide (('A' ≤ c ∧ c ≤ 'F') ∨ ('0' ≤ c ∧ c ≤ '9') ∨ c = '-')

def thumbMark : List Char := "thumbnail~".toList

def bMark : List Char := "b~".toList

def zipGuard : List Char := "_media~zip-".toList

def zipMark : List Char := "media~zip-".toList

def mediaMark : List Char := "media~".toList

def overlayMark : List Char := "overlay~".toList

/-- Python substring containment, pat in s. -/
def containsSub (pat : List Char) : List Char → Bool
  | [] => pat.isEmpty
  | s@(_ :: rest) => pat.isPrefixOf s || containsSub pat rest

/-- Everything after the first occurrence of pat, that is parts[1] of
Python s.split(pat, 1); none when pat does not occur (parts has length 1). -/
def splitAfterFirst (pat : List Char) : List Char → Option (List Char)
  | [] => if pat.isEmpty then some [] else none
  | s@(_ :: rest) =>
    if pat.isPrefixOf s then some (s.drop pat.length)
    else splitAfterFirst pat rest

/-- Python s.rsplit(Char.ofNat 46, 1)[0]: everything before the last dot,
or the whole string when there is no dot.  Implemented by locating the
first dot of the reversed string. -/
def stripLastExt (s : List Char) : List Char :=
  match splitAfterFirst ['.'] s.reverse with
  | some afterRev => afterRev.reverse
  | none => s

/-- One attempt of the regex engine at a fixed position: the literal
marker must be a prefix here and the greedy run [A-F0-9-]+ after it must
be non-empty; returns the run. -/
def tryMarkerAt (marker : List Char) (s : List Char) : Option (List Char) :=
  if marker.isPrefixOf s then
    let run := (s.drop marker.length).takeWhile isIdChar
    if run.isEmpty then none else some run
  else none

/-- re.search for marker followed by [A-F0-9-]+ : scan positions left to
right, at each one try the literal plus a non-empty run. -/
def searchMarkerRun (marker : List Char) : List Char → Option (List Char)
  | [] => none
  | s@(_ :: rest) =>
    match tryMarkerAt marker s with
    | some run => some run
    | none => searchMarkerRun marker rest

/-- re.search for the alternation (media|overlay) followed by a tilde and a
non-empty [A-F0-9-]+ run: at each position the media alternative is tried
first.  The Bool is true when the media alternative matched. -/
def searchMediaOverlay : List Char → Option (Bool × List Char)
  | [] => none
  | s@(_ :: rest) =>
    match tryMarkerAt mediaMark s with
    | some run => some (true, run)
    | none =>
      match tryMarkerAt overlayMark s with
      | some run => some (false, run)
      | none => searchMediaOverlay rest

/-- extract_media_id_from_filename of media_id_extractor.py.
Control flow of the source: first the thumbnail exclusion, then the b-tilde
branch (guarded by containment, returning the payload up to the last dot),
then the media-zip branch (guarded by containment of the underscored
marker, returning the regex run), then the media/overlay regex search
whose returned prefix is chosen by containment of media-tilde in the whole
filename, else none. -/
def extract_media_id_from_filename (filename : List Char) : Option (List Char) :=
  if containsSub thumbMark filename then none
  else
    match (if containsSub bMark filename
           then splitAfterFirst bMark filename else none) with
    | some after => some (bMark ++ stripLastExt after)
    | none =>
      match (if containsSub zipGuard filename
             then searchMarkerRun zipMark filename else none) with
      | some run => some (zipMark ++ run)
      | none =>
        match searchMediaOverlay filename with
        | some (_, run) =>
          if containsSub mediaMark filename
          then some (mediaMark ++ run)
          else some (overlayMark ++ run)
        | none => none

/-! ### timestamp_matcher.py and mp4_processor.py

A message record, reduced to the two fields the matcher reads: the
truthiness of matched_media_files and the value of the field named
Created(microseconds), which holds milliseconds.  The try/except int
coercion of the source is absorbed into the Option: a missing or
non-coercible field is none.  The source skips a falsy raw value, which
for an integer-valued field means none or zero. -/
structure Message where
  matchedMediaFiles : Bool
  created : Option Int
deriving DecidableEq, Inhabited, Repr

/-- One tuple (timestamp_ms, conv_id, msg_idx, message) of the index built
by build_millisecond_index. -/
structure IndexEntry where
  ts : Int
  convId : String
  msgIdx : Nat
  msg : Message
deriving DecidableEq, Inhabited, Repr

/-- The tuple (conversation_id, message_index, message, time_diff_ms)
returned by find_closest_message_binary. -/
structure MatchResult where
  convId : String
  msgIdx : Nat
  msg : Message
  diff : Int
deriving DecidableEq, Repr

/-- The body of the for idx, message in enumerate(message_list) loop of
build_millisecond_index: skip messages whose matched_media_files is truthy,
skip a falsy (absent or zero) timestamp, otherwise emit the entry. -/
def collectEligible (convId : String) (idx : Nat) : List Message → List IndexEntry
  | [] => []
  | m :: rest =>
    if m.matchedMediaFiles then collectEligible convId (idx + 1) rest
    else
      match m.created with
      | none => collectEligible convId (idx + 1) rest
      | some t =>
        if t = 0 then collectEligible convId (idx + 1) rest
        else ⟨t, convId, idx, m⟩ :: collectEligible convId (idx + 1) rest

/-- build_millisecond_index: collect the eligible entries of every
conversation, then sort ascending by timestamp.  The source uses Python's
stable list.sort with key x[0]; insertion sort as defined in Mathlib is
stable, so it computes the same list. -/
def build_millisecond_index (messages : List (String × List Message)) : List IndexEntry :=
  let raw := messages.foldl (fun acc p => acc ++ collectEligible p.1 0 p.2) []
  List.insertionSort (fun a b => a.ts ≤ b.ts) raw

/-- The while left <= right binary-search loop of
find_closest_message_binary, with the iteration bound made explicit as a
fuel argument: each iteration shrinks right + 1 - left by at least one, so
with fuel at least right + 1 - left the fuel never reaches zero while the
loop condition still holds, and the zero-fuel branch coincides with loop
exit.  mid is (left + right) / 2 on nonnegative values, as in Python; the
zero default of getD is never read because mid stays in range. -/
def bsLoopF (ts : List Int) (q : Int) : Nat → Nat → Int → Nat × Int
  | 0, l, r => (l, r)
  | fuel + 1, l, r =>
    if (l : Int) ≤ r then
      let mid : Nat := (l + r.toNat) / 2
      if ts.getD mid 0 < q then bsLoopF ts q fuel (mid + 1) r
      else bsLoopF ts q fuel l ((mid : Int) - 1)
    else (l, r)

/-- The binary-search loop run from its entry state with sufficient fuel. -/
def bsLoop (ts : List Int) (q : Int) (l : Nat) (r : Int) : Nat × Int :=
  bsLoopF ts q (r + 1 - (l : Int)).toNat l r

/-- Candidate collected by the backward walk: positive diff, file after
message. -/
def candOfLeft (q : Int) (e : IndexEntry) : MatchResult :=
  ⟨e.convId, e.msgIdx, e.msg, q - e.ts⟩

/-- Candidate collected by the forward walk: the source stores the negated
difference, negative for later messages. -/
def candOfRight (q : Int) (e : IndexEntry) : MatchResult :=
  ⟨e.convId, e.msgIdx, e.msg, -(e.ts - q)⟩

/-- The candidates list of find_closest_message_binary.  The backward walk
from index right down to 0, breaking as soon as q - ts exceeds the
threshold, traverses the reversed prefix of length right + 1 and is its
takeWhile; the forward walk from index left is the takeWhile of the
suffix.  Backward-walk candidates are appended first, as in the source. -/
def fcCandidates (q : Int) (index : List IndexEntry) (T : Int) : List MatchResult :=
  let lr := bsLoop (index.map (·.ts)) q 0 ((index.length : Int) - 1)
  let candsL := ((index.take (lr.2 + 1).toNat).reverse.takeWhile
      (fun e => decide (q - e.ts ≤ T))).map (candOfLeft q)
  let candsR := ((index.drop lr.1).takeWhile
      (fun e => decide (e.ts - q ≤ T))).map (candOfRight q)
  candsL ++ candsR

/-- Python min(candidates, key=lambda x: abs(x[3])): fold keeping the
first element of minimal absolute difference. -/
def pickMin (c : MatchResult) (cs : List MatchResult) : MatchResult :=
  cs.foldl (fun best x => if |x.diff| < |best.diff| then x else best) c

/-- find_closest_message_binary of timestamp_matcher.py. -/
def find_closest_message_binary (q : Int) (index : List IndexEntry) (T : Int) :
    Option MatchResult :=
  if index.isEmpty then none
  else
    match fcCandidates q index T with
    | [] => none
    | c :: cs => some (pickMin c cs)

/-- Python dict insertion matches[k] = v on a dict modelled as an
association list: overwrite the value at an existing key in place, else
append. -/
def dictInsert {V : Type} (k : String) (v : V) : List (String × V) → List (String × V)
  | [] => [(k, v)]
  | (k', v') :: rest => if k' = k then (k', v) :: rest else (k', v') :: dictInsert k v rest

/-- The body of the sequential per-file loop of match_mp4_timestamps: skip
a file whose extracted timestamp is falsy (none or zero), otherwise query
the index and record conversation id, message index and diff under the
file name. -/
def matchStep (index : List IndexEntry) (T : Int)
    (acc : List (String × String × Nat × Int)) (f : String × Option Int) :
    List (String × String × Nat × Int) :=
  match f.2 with
  | none => acc
  | some t =>
    if t = 0 then acc
    else
      match find_closest_message_binary t index T with
      | some m => dictInsert f.1 (m.convId, m.msgIdx, m.diff) acc
      | none => acc

/-- match_mp4_timestamps of timestamp_matcher.py (the sequential branch;
the parallel branch computes the same per-file results merged under a
lock).  A file is a pair of its name and the Option Int that
extract_mp4_timestamp would return for it, which is the function's only
use of the filesystem. -/
def match_mp4_timestamps (files : List (String × Option Int))
    (messages : List (String × List Message)) (thresholdSeconds : Int) :
    List (String × String × Nat × Int) :=
  let index := build_millisecond_index messages
  if index.isEmpty then []
  else files.foldl (matchStep index (thresholdSeconds * 1000)) []

/-- Seconds between the 1904 container epoch and the 1970 Unix epoch,
QUICKTIME_EPOCH_ADJUSTER of mp4_processor.py. -/
def QUICKTIME_EPOCH_ADJUSTER : Nat := 2082844800

/-- The tail of parse_mp4_timestamp_binary once the creation-time field
has been decoded from the mvhd box: a positive value is shifted from the
container epoch to the Unix epoch and scaled to milliseconds, anything
else yields none. -/
def mp4_creation_to_ms (creationTime : Nat) : Option Int :=
  if 0 < creationTime then
    some (((creationTime : Int) - (QUICKTIME_EPOCH_ADJUSTER : Int)) * 1000)
  else none

/-! ### orchestrator.py -/

/-- The derived sets of run_phase1: matched ids, unmatched ids and orphaned
files computed from the message id set and the key set of the media file
index. -/
def phase1_id_sets (allMediaIds indexKeys : Finset String) :
    Finset String × Finset String × Finset String :=
  (allMediaIds ∩ indexKeys, allMediaIds \ indexKeys, indexKeys \ allMediaIds)

/-- Total order instances for the sort relation of the index. -/
instance : IsTotal IndexEntry (fun a b => a.ts ≤ b.ts) :=
  ⟨fun a b => le_total a.ts b.ts⟩

instance : IsTrans IndexEntry (fun a b => a.ts ≤ b.ts) :=
  ⟨fun _ _ _ h h' => le_trans h h'⟩

/-! ### Theorems about the filename parser -/

theorem tryMarkerAt_isSome_isPrefix {marker s run : List Char}
    (h : tryMarkerAt marker s = some run) : marker.isPrefixOf s = true := by
  unfold tryMarkerAt at h
  split at h
  · assumption
  · exact absurd h (by simp)

theorem searchMediaOverlay_true_contains :
    ∀ (f run : List Char), searchMediaOverlay f = some (true, run) →
      containsSub mediaMark f = true := by
  intro f
  induction f with
  | nil => intro run h; simp [searchMediaOverlay] at h
  | cons c rest ih =>
    intro run h
    rw [searchMediaOverlay] at h
    cases htm : tryMarkerAt mediaMark (c :: rest) with
    | some run' =>
      have hpre := tryMarkerAt_isSome_isPrefix htm
      simp [containsSub, hpre]
    | none =>
      rw [htm] at h
      cases hto : tryMarkerAt overlayMark (c :: rest) with
      | some run' => rw [hto] at h; simp at h
      | none =>
        rw [hto] at h
        simp [containsSub, ih run h]

/-- C7: every filename containing the substring thumbnail-tilde anywhere is
rejected by extract_media_id_from_filename (result none), no matter which
other markers also occur in it. -/
theorem thumbnail_always_excluded (f : List Char)
    (h : containsSub thumbMark f = true) :
    extract_media_id_from_filename f = none := by
  unfold extract_media_id_from_filename
  simp [h]

theorem thumbnail_always_excluded_witness :
    containsSub thumbMark ("x_thumbnail~media~ABC.jpg".toList) = true ∧
    extract_media_id_from_filename ("x_thumbnail~media~ABC.jpg".toList) = none :=
  ⟨by decide, thumbnail_always_excluded ("x_thumbnail~media~ABC.jpg".toList) (by decide)⟩

/-- C2 counterexample: the filename media~zip-ABC.mp4 contains the marker
media~zip- immediately followed by the non-empty run ABC of characters from
the class [A-F0-9-], contains no thumbnail marker and no b-tilde marker,
yet the parser returns none rather than the media-zip identifier, because
the source guards the zip branch on the underscored marker _media~zip-. -/
theorem zip_without_underscore_not_extracted_cex :
    containsSub thumbMark ("media~zip-ABC.mp4".toList) = false ∧
    containsSub bMark ("media~zip-ABC.mp4".toList) = false ∧
    searchMarkerRun zipMark ("media~zip-ABC.mp4".toList) =
      some ("ABC".toList) ∧
    extract_media_id_from_filename ("media~zip-ABC.mp4".toList) = none := by
  decide

/-- C2 (amended): for every filename without the thumbnail marker and
without b-tilde, if the filename contains the underscored marker
_media~zip- and the regex search for media~zip- followed by a non-empty
run of characters from [A-F0-9-] succeeds with that run, the parser
returns the media-zip identifier made of media~zip- plus that run, never
a plain media identifier. -/
theorem zip_id_extraction_underscore_guard (f run : List Char)
    (hthumb : containsSub thumbMark f = false)
    (hb : containsSub bMark f = false)
    (hguard : containsSub zipGuard f = true)
    (hrun : searchMarkerRun zipMark f = some run) :
    extract_media_id_from_filename f = some (zipMark ++ run) := by
  unfold extract_media_id_from_filename
  simp [hthumb, hb, hguard, hrun]

theorem zip_id_extraction_underscore_guard_witness :
    extract_media_id_from_filename
        ("2025-07-30_media~zip-C63E6B4D-4DF6-4C2C-A331-A49E4F1C0109.mp4".toList) =
      some (zipMark ++ "C63E6B4D-4DF6-4C2C-A331-A49E4F1C0109".toList) :=
  zip_id_extraction_underscore_guard
    ("2025-07-30_media~zip-C63E6B4D-4DF6-4C2C-A331-A49E4F1C0109.mp4".toList)
    ("C63E6B4D-4DF6-4C2C-A331-A49E4F1C0109".toList)
    (by decide) (by decide) (by decide) (by decide)

/-- C4 counterexample: in media~z_overlay~ABC the first marker occurrence
followed by a non-empty [A-F0-9-] run uses the overlay marker (the search
returns the overlay alternative, encoded false, with run ABC), the
thumbnail, b-tilde and underscored zip markers are absent, yet the parser
returns the media-tagged identifier media~ABC instead of overlay~ABC,
because the source picks the tag by substring containment of media-tilde
in the whole filename. -/
theorem overlay_tag_overridden_by_media_cex :
    containsSub thumbMark ("media~z_overlay~ABC".toList) = false ∧
    containsSub bMark ("media~z_overlay~ABC".toList) = false ∧
    containsSub zipGuard ("media~z_overlay~ABC".toList) = false ∧
    searchMediaOverlay ("media~z_overlay~ABC".toList) = some (false, "ABC".toList) ∧
    extract_media_id_from_filename ("media~z_overlay~ABC".toList) =
      some ("media~ABC".toList) ∧
    "media~ABC".toList ≠ "overlay~ABC".toList := by
  decide

/-- C4 (amended): for every filename without the thumbnail, b-tilde and
underscored zip markers, when the search for the first media or overlay
marker followed by a non-empty [A-F0-9-] run succeeds: if the matching
marker is media the parser returns the media-tagged identifier with that
run, and if the matching marker is overlay the parser returns the
overlay-tagged identifier with that run provided the substring media-tilde
occurs nowhere in the filename (when it does occur elsewhere, the source
tags the result media instead). -/
theorem media_overlay_tagging (f run : List Char) (tag : Bool)
    (hthumb : containsSub thumbMark f = false)
    (hb : containsSub bMark f = false)
    (hzip : containsSub zipGuard f = false)
    (hsearch : searchMediaOverlay f = some (tag, run)) :
    (tag = true → extract_media_id_from_filename f = some (mediaMark ++ run)) ∧
    (tag = false → containsSub mediaMark f = false →
      extract_media_id_from_filename f = some (overlayMark ++ run)) := by
  constructor
  · intro htag
    subst htag
    have hc := searchMediaOverlay_true_contains f run hsearch
    unfold extract_media_id_from_filename
    simp [hthumb, hb, hzip, hsearch, hc]
  · intro htag hnc
    subst htag
    unfold extract_media_id_from_filename
    simp [hthumb, hb, hzip, hsearch, hnc]

theorem media_overlay_tagging_witness :
    extract_media_id_from_filename
        ("2025-07-27_overlay~7E80A0BA-875C-49B0-8F4A-865EB6F8EC21.webp".toList) =
      some (overlayMark ++ "7E80A0BA-875C-49B0-8F4A-865EB6F8EC21".toList) ∧
    extract_media_id_from_filename
        ("2025-07-27_media~28E0FFB8-5182-4D9D-92E1-DD941C881FC5.mp4".toList) =
      some (mediaMark ++ "28E0FFB8-5182-4D9D-92E1-DD941C881FC5".toList) :=
  ⟨(media_overlay_tagging
      ("2025-07-27_overlay~7E80A0BA-875C-49B0-8F4A-865EB6F8EC21.webp".toList)
      ("7E80A0BA-875C-49B0-8F4A-865EB6F8EC21".toList) false
      (by decide) (by decide) (by decide) (by decide)).2 rfl (by decide),
   (media_overlay_tagging
      ("2025-07-27_media~28E0FFB8-5182-4D9D-92E1-DD941C881FC5.mp4".toList)
      ("28E0FFB8-5182-4D9D-92E1-DD941C881FC5".toList) true
      (by decide) (by decide) (by decide) (by decide)).1 rfl⟩

/-! ### Theorems about the orchestrator sets -/

/-- C8: the derived sets of run_phase1 satisfy matched union unmatched
equals the identifier set, matched and unmatched are disjoint, and the
three sets are exactly intersection, difference and reverse difference of
the identifier set and the index key set. -/
theorem phase1_sets_partition (allMediaIds indexKeys : Finset String) :
    (phase1_id_sets allMediaIds indexKeys).1 ∪ (phase1_id_sets allMediaIds indexKeys).2.1 =
      allMediaIds ∧
    (phase1_id_sets allMediaIds indexKeys).1 ∩ (phase1_id_sets allMediaIds indexKeys).2.1 =
      ∅ ∧
    (phase1_id_sets allMediaIds indexKeys).1 = allMediaIds ∩ indexKeys ∧
    (phase1_id_sets allMediaIds indexKeys).2.1 = allMediaIds \ indexKeys ∧
    (phase1_id_sets allMediaIds indexKeys).2.2 = indexKeys \ allMediaIds := by
  refine ⟨?_, ?_, rfl, rfl, rfl⟩
  · ext x
    simp only [phase1_id_sets, Finset.mem_union, Finset.mem_inter, Finset.mem_sdiff]
    tauto
  · ext x
    simp only [phase1_id_sets, Finset.mem_inter, Finset.mem_sdiff, Finset.not_mem_empty,
      iff_false]
    tauto

/-! ### Theorems about the millisecond index -/

theorem collectEligible_mem {cid : String} {e : IndexEntry} :
    ∀ (k : Nat) (msgs : List Message), e ∈ collectEligible cid k msgs →
      e.convId = cid ∧ e.msg.matchedMediaFiles = false ∧
      ∃ j, e.msgIdx = k + j ∧ msgs.get? j = some e.msg := by
  intro k msgs
  induction msgs generalizing k with
  | nil => intro h; simp [collectEligible] at h
  | cons m rest ih =>
    intro h
    simp only [collectEligible] at h
    split at h
    · obtain ⟨h1, h2, j, hj, hg⟩ := ih (k + 1) h
      exact ⟨h1, h2, j + 1, by omega, by simpa using hg⟩
    · rename_i hm
      split at h
      · obtain ⟨h1, h2, j, hj, hg⟩ := ih (k + 1) h
        exact ⟨h1, h2, j + 1, by omega, by simpa using hg⟩
      · rename_i t hc
        split at h
        · obtain ⟨h1, h2, j, hj, hg⟩ := ih (k + 1) h
          exact ⟨h1, h2, j + 1, by omega, by simpa using hg⟩
        · rcases List.mem_cons.mp h with h | h
          · subst h
            refine ⟨rfl, ?_, 0, rfl, rfl⟩
            simpa using hm
          · obtain ⟨h1, h2, j, hj, hg⟩ := ih (k + 1) h
            exact ⟨h1, h2, j + 1, by omega, by simpa using hg⟩

theorem mem_foldl_append {α β : Type} (g : β → List α) :
    ∀ (l : List β) (init : List α) (x : α),
      (x ∈ l.foldl (fun acc p => acc ++ g p) init ↔ x ∈ init ∨ ∃ p ∈ l, x ∈ g p) := by
  intro l
  induction l with
  | nil => intro init x; simp
  | cons b rest ih =>
    intro init x
    rw [List.foldl_cons, ih]
    simp only [List.mem_append, List.mem_cons]
    constructor
    · rintro ((h | h) | ⟨p, hp, hx⟩)
      · exact Or.inl h
      · exact Or.inr ⟨b, Or.inl rfl, h⟩
      · exact Or.inr ⟨p, Or.inr hp, hx⟩
    · rintro (h | ⟨p, hp | hp, hx⟩)
      · exact Or.inl (Or.inl h)
      · exact Or.inl (Or.inr (hp ▸ hx))
      · exact Or.inr ⟨p, hp, hx⟩

theorem mem_build_index {e : IndexEntry} {messages : List (String × List Message)} :
    e ∈ build_millisecond_index messages ↔
      ∃ p ∈ messages, e ∈ collectEligible p.1 0 p.2 := by
  unfold build_millisecond_index
  rw [List.mem_insertionSort]
  rw [mem_foldl_append]
  simp

/-- C6: the index built by build_millisecond_index is sorted ascending,
each adjacent pair of entries satisfies ts at i at most ts at i plus one,
and no entry of the index carries a message whose matched_media_files
marker is set. -/
theorem build_index_sorted_and_eligible (messages : List (String × List Message)) :
    List.Chain' (fun a b : IndexEntry => a.ts ≤ b.ts) (build_millisecond_index messages) ∧
    ∀ e ∈ build_millisecond_index messages, e.msg.matchedMediaFiles = false := by
  constructor
  · refine List.chain'_iff_pairwise.mpr ?_
    unfold build_millisecond_index
    exact List.sorted_insertionSort _ _
  · intro e he
    obtain ⟨p, _, hce⟩ := mem_build_index.mp he
    exact (collectEligible_mem 0 p.2 hce).2.1

/-! ### Theorems about the mp4 zero timestamp -/

/-- C10: a file whose extracted creation timestamp is exactly zero
milliseconds is treated by match_mp4_timestamps exactly like a file with
no extractable timestamp: inserting it anywhere in the batch leaves the
result unchanged relative to a file with none, a batch consisting of such
a file alone yields the empty mapping, and the binary parser tail yields
exactly zero precisely when the container creation-time field equals the
epoch adjuster of 2082844800 seconds. -/
theorem zero_timestamp_file_skipped :
    (∀ (files₁ files₂ : List (String × Option Int)) (name : String)
        (messages : List (String × List Message)) (T : Int),
        match_mp4_timestamps (files₁ ++ (name, some 0) :: files₂) messages T =
          match_mp4_timestamps (files₁ ++ (name, (none : Option Int)) :: files₂) messages T) ∧
    (∀ (name : String) (messages : List (String × List Message)) (T : Int),
        match_mp4_timestamps [(name, some 0)] messages T = []) ∧
    (∀ ct : Nat, mp4_creation_to_ms ct = some 0 ↔ ct = QUICKTIME_EPOCH_ADJUSTER) := by
  refine ⟨?_, ?_, ?_⟩
  · intro files₁ files₂ name messages T
    by_cases hie : (build_millisecond_index messages).isEmpty = true
    · simp [match_mp4_timestamps, hie]
    · simp only [match_mp4_timestamps, hie, if_false]
      rw [List.foldl_append, List.foldl_append, List.foldl_cons, List.foldl_cons]
      congr 1
  · intro name messages T
    by_cases hie : (build_millisecond_index messages).isEmpty = true
    · simp [match_mp4_timestamps, hie]
    · simp [match_mp4_timestamps, hie, matchStep]
  · intro ct
    by_cases hpos : 0 < ct
    · simp only [mp4_creation_to_ms, if_pos hpos, Option.some.injEq, mul_eq_zero,
        sub_eq_zero]
      constructor
      · rintro (h | h)
        · exact_mod_cast h
        · omega
      · intro h
        left
        exact_mod_cast h
    · have h0 : ct = 0 := by omega
      subst h0
      simp [mp4_creation_to_ms, QUICKTIME_EPOCH_ADJUSTER]

/-! ### Correctness of the binary-search loop -/

theorem getD_of_lt {α : Type} (l : List α) (d : α) (i : Nat) (h : i < l.length) :
    l.getD i d = l.get ⟨i, h⟩ := by
  simp [List.getD_eq_getElem?_getD, List.getElem?_eq_getElem h]

/-- Invariant proof for the binary-search loop: on a sorted timestamp list,
run with enough fuel from a state whose outer regions are already settled,
the loop ends at the lower insertion point: right lands one below left,
everything strictly below the final left is strictly below the query and
everything at or above it is at or above the query. -/
theorem bsLoopF_spec (ts : List Int) (q : Int)
    (hsort : ∀ i j : Nat, i ≤ j → j < ts.length → ts.getD i 0 ≤ ts.getD j 0) :
    ∀ (fuel l : Nat) (r : Int),
      (r + 1 - (l : Int)).toNat ≤ fuel →
      (l : Int) ≤ r + 1 →
      r < (ts.length : Int) →
      (∀ i : Nat, i < l → ts.getD i 0 < q) →
      (∀ i : Nat, (r : Int) < (i : Int) → i < ts.length → q ≤ ts.getD i 0) →
      ((bsLoopF ts q fuel l r).2 = ((bsLoopF ts q fuel l r).1 : Int) - 1 ∧
       (bsLoopF ts q fuel l r).1 ≤ ts.length ∧
       (∀ i : Nat, i < (bsLoopF ts q fuel l r).1 → ts.getD i 0 < q) ∧
       (∀ i : Nat, (bsLoopF ts q fuel l r).1 ≤ i → i < ts.length → q ≤ ts.getD i 0)) := by
  intro fuel
  induction fuel with
  | zero =>
    intro l r hfuel hlr hrn hl hr
    simp only [bsLoopF]
    refine ⟨by omega, by omega, hl, ?_⟩
    intro i hi hilen
    exact hr i (by omega) hilen
  | succ fuel ih =>
    intro l r hfuel hlr hrn hl hr
    by_cases hcond : (l : Int) ≤ r
    · have hr0 : (0 : Int) ≤ r := le_trans (by exact_mod_cast Nat.zero_le l) hcond
      simp only [bsLoopF, if_pos hcond]
      set mid := (l + r.toNat) / 2 with hmid
      have hlmid : l ≤ mid := by omega
      have hmidr : mid ≤ r.toNat := by omega
      have hmidlen : mid < ts.length := by omega
      by_cases hmidq : ts.getD mid 0 < q
      · rw [if_pos hmidq]
        refine ih (mid + 1) r (by omega) (by omega) hrn ?_ hr
        intro i hi
        exact lt_of_le_of_lt (hsort i mid (by omega) hmidlen) hmidq
      · rw [if_neg hmidq]
        push_neg at hmidq
        refine ih l ((mid : Int) - 1) (by omega) (by omega) (by omega) hl ?_
        intro i hi hilen
        exact le_trans hmidq (hsort mid i (by omega) hilen)
    · simp only [bsLoopF, if_neg hcond]
      refine ⟨by omega, by omega, hl, ?_⟩
      intro i hi hilen
      exact hr i (by omega) hilen

/-- The loop from its entry state, as called by find_closest_message_binary. -/
theorem bsLoop_spec (ts : List Int) (q : Int)
    (hsort : ∀ i j : Nat, i ≤ j → j < ts.length → ts.getD i 0 ≤ ts.getD j 0) :
    ((bsLoop ts q 0 ((ts.length : Int) - 1)).2 =
       ((bsLoop ts q 0 ((ts.length : Int) - 1)).1 : Int) - 1 ∧
     (bsLoop ts q 0 ((ts.length : Int) - 1)).1 ≤ ts.length ∧
     (∀ i : Nat, i < (bsLoop ts q 0 ((ts.length : Int) - 1)).1 → ts.getD i 0 < q) ∧
     (∀ i : Nat, (bsLoop ts q 0 ((ts.length : Int) - 1)).1 ≤ i → i < ts.length →
       q ≤ ts.getD i 0)) := by
  unfold bsLoop
  refine bsLoopF_spec ts q hsort _ 0 _ le_rfl (by omega) (by omega) (by omega) ?_
  intro i h1 h2
  exfalso
  omega

theorem sorted_ts_getD {index : List IndexEntry}
    (hsort : List.Sorted (fun a b : IndexEntry => a.ts ≤ b.ts) index) :
    ∀ i j : Nat, i ≤ j → j < (index.map (fun e => e.ts)).length →
      (index.map (fun e => e.ts)).getD i 0 ≤ (index.map (fun e => e.ts)).getD j 0 := by
  intro i j hij hj
  rw [List.length_map] at hj
  have hi : i < index.length := lt_of_le_of_lt hij hj
  rw [getD_of_lt _ _ i (by simpa using hi), getD_of_lt _ _ j (by simpa using hj)]
  rcases eq_or_lt_of_le hij with h | h
  · subst h
    rfl
  · have := hsort.rel_get_of_lt (a := ⟨i, by simpa using hi⟩) (b := ⟨j, by simpa using hj⟩)
      (by simpa using h)
    simpa using this

/-- The facts about the loop exit state used by the two walks, phrased on
the prefix before the insertion point and the suffix from it. -/
theorem bsLoop_index_facts {index : List IndexEntry} (q : Int)
    (hsort : List.Sorted (fun a b : IndexEntry => a.ts ≤ b.ts) index) :
    (bsLoop (index.map (fun e => e.ts)) q 0 ((index.length : Int) - 1)).2 =
      ((bsLoop (index.map (fun e => e.ts)) q 0 ((index.length : Int) - 1)).1 : Int) - 1 ∧
    (bsLoop (index.map (fun e => e.ts)) q 0 ((index.length : Int) - 1)).1 ≤ index.length ∧
    (∀ e ∈ index.take
        (bsLoop (index.map (fun e => e.ts)) q 0 ((index.length : Int) - 1)).1,
      e.ts < q) ∧
    (∀ e ∈ index.drop
        (bsLoop (index.map (fun e => e.ts)) q 0 ((index.length : Int) - 1)).1,
      q ≤ e.ts) := by
  have hlen : ((index.map (fun e => e.ts)).length : Int) - 1 = ((index.length : Int) - 1) := by
    simp
  have hspec := bsLoop_spec (index.map (fun e => e.ts)) q (sorted_ts_getD hsort)
  rw [hlen] at hspec
  obtain ⟨h1, h2, h3, h4⟩ := hspec
  rw [List.length_map] at h2
  set L := (bsLoop (index.map (fun e => e.ts)) q 0 ((index.length : Int) - 1)).1 with hLdef
  refine ⟨h1, h2, ?_, ?_⟩
  · intro e he
    obtain ⟨i, hget⟩ := List.mem_iff_get.mp he
    have hib : (i : Nat) < L ∧ (i : Nat) < index.length := by
      have := i.isLt
      simp only [List.length_take] at this
      omega
    have hts := h3 i hib.1
    rw [getD_of_lt _ _ i (by simpa using hib.2)] at hts
    rw [show (index.map (fun e => e.ts)).get ⟨i, by simpa using hib.2⟩ =
        (index.get ⟨i, hib.2⟩).ts by simp] at hts
    rw [show (index.take L).get i = index.get ⟨i, hib.2⟩ by
      simp [List.get_eq_getElem]] at hget
    rw [← hget]
    exact hts
  · intro e he
    obtain ⟨i, hget⟩ := List.mem_iff_get.mp he
    have hib : L + (i : Nat) < index.length := by
      have := i.isLt
      simp only [List.length_drop] at this
      omega
    have hts := h4 (L + i) (by omega) (by simpa using hib)
    rw [getD_of_lt _ _ _ (by simpa using hib)] at hts
    rw [show (index.map (fun e => e.ts)).get ⟨L + i, by simpa using hib⟩ =
        (index.get ⟨L + i, hib⟩).ts by simp] at hts
    rw [show (index.drop L).get i = index.get ⟨L + i, hib⟩ by
      simp [List.get_eq_getElem, List.getElem_drop]] at hget
    rw [← hget]
    exact hts

/-! ### The candidate walks -/

/-- On a list along which the predicate can only switch from true to
false, the elements of takeWhile are exactly the members satisfying the
predicate: the early exit of the walk loses nothing. -/
theorem mem_takeWhile_iff_of_pairwise {α : Type} {p : α → Bool} :
    ∀ {xs : List α}, List.Pairwise (fun a b => p b = true → p a = true) xs →
      ∀ x, (x ∈ xs.takeWhile p ↔ x ∈ xs ∧ p x = true) := by
  intro xs
  induction xs with
  | nil => intro _ x; simp
  | cons a rest ih =>
    intro hp x
    rw [List.pairwise_cons] at hp
    obtain ⟨ha, hrest⟩ := hp
    by_cases hpa : p a = true
    · rw [List.takeWhile_cons_of_pos hpa]
      simp only [List.mem_cons, ih hrest]
      constructor
      · rintro (rfl | ⟨hx, hpx⟩)
        · exact ⟨Or.inl rfl, hpa⟩
        · exact ⟨Or.inr hx, hpx⟩
      · rintro ⟨rfl | hx, hpx⟩
        · exact Or.inl rfl
        · exact Or.inr ⟨hx, hpx⟩
    · rw [List.takeWhile_cons_of_neg (by simpa using hpa)]
      simp only [List.not_mem_nil, false_iff]
      rintro ⟨hmem, hpx⟩
      rcases List.mem_cons.mp hmem with rfl | hx
      · exact hpa hpx
      · exact hpa (ha x hx hpx)

theorem pickMin_mem : ∀ (cs : List MatchResult) (c : MatchResult), pickMin c cs ∈ c :: cs := by
  intro cs
  induction cs with
  | nil => intro c; simp [pickMin]
  | cons x rest ih =>
    intro c
    have hdef : pickMin c (x :: rest) =
        pickMin (if |x.diff| < |c.diff| then x else c) rest := rfl
    rw [hdef]
    split
    · rcases List.mem_cons.mp (ih x) with h | h
      · rw [h]; simp
      · simp [h]
    · rcases List.mem_cons.mp (ih c) with h | h
      · rw [h]; simp
      · simp [h]

theorem pickMin_le : ∀ (cs : List MatchResult) (c x : MatchResult),
    x ∈ c :: cs → |(pickMin c cs).diff| ≤ |x.diff| := by
  intro cs
  induction cs with
  | nil =>
    intro c x hx
    rcases List.mem_cons.mp hx with h | h
    · subst h; exact le_refl _
    · simp at h
  | cons y rest ih =>
    intro c x hx
    have hdef : pickMin c (y :: rest) =
        pickMin (if |y.diff| < |c.diff| then y else c) rest := rfl
    rw [hdef]
    rcases List.mem_cons.mp hx with h | hx'
    · rw [h]
      split
      · rename_i hlt
        exact le_trans (ih y y (List.mem_cons_self y rest)) (le_of_lt hlt)
      · exact ih c c (List.mem_cons_self c rest)
    · rcases List.mem_cons.mp hx' with h | hx''
      · rw [h]
        split
        · exact ih y y (List.mem_cons_self y rest)
        · rename_i hnlt
          push_neg at hnlt
          exact le_trans (ih c c (List.mem_cons_self c rest)) hnlt
      · split
        · exact ih y x (List.mem_cons_of_mem y hx'')
        · exact ih c x (List.mem_cons_of_mem c hx'')

/-- The candidates list written without the intermediate lets. -/
theorem fcCandidates_eq (q : Int) (index : List IndexEntry) (T : Int) :
    fcCandidates q index T =
      ((index.take
          ((bsLoop (index.map (fun e => e.ts)) q 0 ((index.length : Int) - 1)).2 + 1).toNat).reverse.takeWhile
        (fun e => decide (q - e.ts ≤ T))).map (candOfLeft q) ++
      ((index.drop
          (bsLoop (index.map (fun e => e.ts)) q 0 ((index.length : Int) - 1)).1).takeWhile
        (fun e => decide (e.ts - q ≤ T))).map (candOfRight q) := rfl

/-- Every collected candidate comes from an index entry within the
threshold in absolute difference, and carries that entry's fields with the
stored diff agreeing in absolute value. -/
theorem fcCandidates_sound {index : List IndexEntry} {q T : Int}
    (hsort : List.Sorted (fun a b : IndexEntry => a.ts ≤ b.ts) index) :
    ∀ c ∈ fcCandidates q index T,
      ∃ e ∈ index, c.convId = e.convId ∧ c.msgIdx = e.msgIdx ∧ c.msg = e.msg ∧
        |c.diff| = |e.ts - q| ∧ |e.ts - q| ≤ T := by
  obtain ⟨hsnd, hLlen, htake, hdrop⟩ := bsLoop_index_facts q hsort
  intro c hc
  rw [fcCandidates_eq, hsnd] at hc
  rw [show (((bsLoop (index.map (fun e => e.ts)) q 0 ((index.length : Int) - 1)).1 : Int)
      - 1 + 1).toNat =
    (bsLoop (index.map (fun e => e.ts)) q 0 ((index.length : Int) - 1)).1 by omega] at hc
  rcases List.mem_append.mp hc with hc | hc
  · obtain ⟨e, he, rfl⟩ := List.mem_map.mp hc
    have hemem : e ∈ (index.take
        (bsLoop (index.map (fun x => x.ts)) q 0 ((index.length : Int) - 1)).1).reverse :=
      (List.takeWhile_prefix _).subset he
    have hpe : decide (q - e.ts ≤ T) = true := by
      have hpw : List.Pairwise
          (fun a b : IndexEntry => decide (q - b.ts ≤ T) = true →
            decide (q - a.ts ≤ T) = true)
          (index.take
            (bsLoop (index.map (fun x => x.ts)) q 0 ((index.length : Int) - 1)).1).reverse := by
        refine List.pairwise_reverse.mpr ?_
        refine (hsort.sublist (List.take_sublist _ _)).imp ?_
        intro a b hab
        simp only [decide_eq_true_eq]
        omega
      exact ((mem_takeWhile_iff_of_pairwise hpw e).mp he).2
    rw [List.mem_reverse] at hemem
    have hlt : e.ts < q := htake e hemem
    have hle : q - e.ts ≤ T := by simpa using hpe
    refine ⟨e, List.take_subset _ _ hemem, rfl, rfl, rfl, ?_, ?_⟩
    · show |q - e.ts| = |e.ts - q|
      exact abs_sub_comm q e.ts
    · rw [abs_sub_comm, abs_of_pos (by omega : (0 : Int) < q - e.ts)]
      exact hle
  · obtain ⟨e, he, rfl⟩ := List.mem_map.mp hc
    have hemem : e ∈ index.drop
        (bsLoop (index.map (fun x => x.ts)) q 0 ((index.length : Int) - 1)).1 :=
      (List.takeWhile_prefix _).subset he
    have hpe : decide (e.ts - q ≤ T) = true := by
      have hpw : List.Pairwise
          (fun a b : IndexEntry => decide (b.ts - q ≤ T) = true →
            decide (a.ts - q ≤ T) = true)
          (index.drop
            (bsLoop (index.map (fun x => x.ts)) q 0 ((index.length : Int) - 1)).1) := by
        refine (hsort.sublist (List.drop_sublist _ _)).imp ?_
        intro a b hab
        simp only [decide_eq_true_eq]
        omega
      exact ((mem_takeWhile_iff_of_pairwise hpw e).mp he).2
    have hge : q ≤ e.ts := hdrop e hemem
    have hle : e.ts - q ≤ T := by simpa using hpe
    refine ⟨e, List.drop_subset _ _ hemem, rfl, rfl, rfl, ?_, ?_⟩
    · show |-(e.ts - q)| = |e.ts - q|
      exact abs_neg (e.ts - q)
    · rw [abs_of_nonneg (by omega : (0 : Int) ≤ e.ts - q)]
      exact hle

/-- Every index entry within the threshold is represented among the
candidates by a candidate of the same absolute difference. -/
theorem fcCandidates_complete {index : List IndexEntry} {q T : Int}
    (hsort : List.Sorted (fun a b : IndexEntry => a.ts ≤ b.ts) index) :
    ∀ e ∈ index, |e.ts - q| ≤ T →
      ∃ c ∈ fcCandidates q index T, |c.diff| = |e.ts - q| := by
  obtain ⟨hsnd, hLlen, htake, hdrop⟩ := bsLoop_index_facts q hsort
  intro e he hthr
  obtain ⟨i, hget⟩ := List.mem_iff_get.mp he
  set L := (bsLoop (index.map (fun e => e.ts)) q 0 ((index.length : Int) - 1)).1 with hLdef
  by_cases hiL : (i : Nat) < L
  · have hmemtake : e ∈ index.take L := by
      rw [List.mem_iff_get]
      refine ⟨⟨i, by simp [List.length_take]; omega⟩, ?_⟩
      rw [show (index.take L).get ⟨i, by simp [List.length_take]; omega⟩ =
          index.get ⟨i, i.isLt⟩ by simp [List.get_eq_getElem]]
      simpa using hget
    have hlt : e.ts < q := htake e hmemtake
    have habs : |e.ts - q| = q - e.ts := by
      rw [abs_sub_comm]
      exact abs_of_pos (by omega)
    have hp : decide (q - e.ts ≤ T) = true := by
      simp only [decide_eq_true_eq]
      omega
    have hpw : List.Pairwise
        (fun a b : IndexEntry => decide (q - b.ts ≤ T) = true →
          decide (q - a.ts ≤ T) = true) (index.take L).reverse := by
      refine List.pairwise_reverse.mpr ?_
      refine (hsort.sublist (List.take_sublist _ _)).imp ?_
      intro a b hab
      simp only [decide_eq_true_eq]
      omega
    have hintw : e ∈ (index.take L).reverse.takeWhile (fun e => decide (q - e.ts ≤ T)) :=
      (mem_takeWhile_iff_of_pairwise hpw e).mpr ⟨List.mem_reverse.mpr hmemtake, hp⟩
    refine ⟨candOfLeft q e, ?_, ?_⟩
    · rw [fcCandidates_eq, hsnd,
        show (((L : Int) - 1 + 1).toNat = L) by omega]
      exact List.mem_append_left _ (List.mem_map_of_mem _ hintw)
    · show |q - e.ts| = |e.ts - q|
      exact abs_sub_comm q e.ts
  · have hmemdrop : e ∈ index.drop L := by
      rw [List.mem_iff_get]
      have hlen : (i : Nat) - L < (index.drop L).length := by
        have := i.isLt
        simp only [List.length_drop]
        omega
      refine ⟨⟨(i : Nat) - L, hlen⟩, ?_⟩
      rw [show (index.drop L).get ⟨(i : Nat) - L, hlen⟩ =
          index.get ⟨L + ((i : Nat) - L), by have := i.isLt; omega⟩ by
        simp [List.get_eq_getElem, List.getElem_drop]]
      rw [show (⟨L + ((i : Nat) - L), by have := i.isLt; omega⟩ : Fin index.length) = i by
        apply Fin.ext
        simp only []
        omega]
      exact hget
    have hge : q ≤ e.ts := hdrop e hmemdrop
    have hp : decide (e.ts - q ≤ T) = true := by
      simp only [decide_eq_true_eq]
      have : |e.ts - q| = e.ts - q := abs_of_nonneg (by omega)
      omega
    have hpw : List.Pairwise
        (fun a b : IndexEntry => decide (b.ts - q ≤ T) = true →
          decide (a.ts - q ≤ T) = true) (index.drop L) := by
      refine (hsort.sublist (List.drop_sublist _ _)).imp ?_
      intro a b hab
      simp only [decide_eq_true_eq]
      omega
    have hintw : e ∈ (index.drop L).takeWhile (fun e => decide (e.ts - q ≤ T)) :=
      (mem_takeWhile_iff_of_pairwise hpw e).mpr ⟨hmemdrop, hp⟩
    refine ⟨candOfRight q e, ?_, ?_⟩
    · rw [fcCandidates_eq, hsnd,
        show (((L : Int) - 1 + 1).toNat = L) by omega]
      exact List.mem_append_right _ (List.mem_map_of_mem _ hintw)
    · show |-(e.ts - q)| = |e.ts - q|
      exact abs_neg (e.ts - q)

/-- Master specification of find_closest_message_binary on a sorted index,
when at least one entry lies within the threshold: it returns a result
drawn from an index entry within the threshold, of globally minimal
absolute difference. -/
theorem find_closest_some_spec {index : List IndexEntry} {q T : Int}
    (hsort : List.Sorted (fun a b : IndexEntry => a.ts ≤ b.ts) index)
    (hex : ∃ e ∈ index, |e.ts - q| ≤ T) :
    ∃ m, find_closest_message_binary q index T = some m ∧
      (∃ e ∈ index, m.convId = e.convId ∧ m.msgIdx = e.msgIdx ∧ m.msg = e.msg ∧
        |m.diff| = |e.ts - q| ∧ |e.ts - q| ≤ T) ∧
      (∀ e ∈ index, |m.diff| ≤ |e.ts - q|) := by
  obtain ⟨e0, he0, hthr0⟩ := hex
  have hne : ¬(index.isEmpty = true) := by
    rw [List.isEmpty_iff]
    rintro rfl
    simp at he0
  obtain ⟨c0, hc0, _⟩ := fcCandidates_complete hsort e0 he0 hthr0
  cases hcands : fcCandidates q index T with
  | nil => rw [hcands] at hc0; simp at hc0
  | cons c cs =>
    refine ⟨pickMin c cs, ?_, ?_, ?_⟩
    · unfold find_closest_message_binary
      rw [if_neg hne, hcands]
    · exact fcCandidates_sound hsort _ (hcands ▸ pickMin_mem cs c)
    · intro e he
      by_cases hthr : |e.ts - q| ≤ T
      · obtain ⟨c', hc', hdc'⟩ := fcCandidates_complete hsort e he hthr
        rw [hcands] at hc'
        exact le_of_le_of_eq (pickMin_le cs c c' hc') hdc'
      · push_neg at hthr
        obtain ⟨e', _, _, _, _, hd', ht'⟩ :=
          fcCandidates_sound hsort _ (hcands ▸ pickMin_mem cs c)
        calc |(pickMin c cs).diff| = |e'.ts - q| := hd'
          _ ≤ T := ht'
          _ ≤ |e.ts - q| := le_of_lt hthr

/-- C1: on an index sorted non-decreasing by timestamp, for every query
within the threshold of at least one entry, find_closest_message_binary
returns a match drawn from an index entry whose absolute difference to the
query is minimal over the entire index; in particular, when the query
exactly equals some entry's timestamp and the threshold is positive, the
returned match has time difference zero. -/
theorem find_closest_min_abs_diff (index : List IndexEntry) (q T : Int)
    (hsort : List.Sorted (fun a b : IndexEntry => a.ts ≤ b.ts) index)
    (hex : ∃ e ∈ index, |e.ts - q| ≤ T) :
    ∃ m, find_closest_message_binary q index T = some m ∧
      (∃ e ∈ index, m.convId = e.convId ∧ m.msgIdx = e.msgIdx ∧ m.msg = e.msg ∧
        |m.diff| = |e.ts - q|) ∧
      (∀ e ∈ index, |m.diff| ≤ |e.ts - q|) ∧
      (0 < T → (∃ e ∈ index, e.ts = q) → m.diff = 0) := by
  obtain ⟨m, hm, ⟨e, he, h1, h2, h3, h4, _⟩, hmin⟩ := find_closest_some_spec hsort hex
  refine ⟨m, hm, ⟨e, he, h1, h2, h3, h4⟩, hmin, ?_⟩
  rintro _ ⟨e', he', hts⟩
  have := hmin e' he'
  rw [hts, sub_self, abs_zero] at this
  exact abs_nonpos_iff.mp this

theorem find_closest_min_abs_diff_witness :
    ∃ m, find_closest_message_binary 160
        [⟨100, "c", 0, ⟨false, some 100⟩⟩, ⟨200, "d", 1, ⟨false, some 200⟩⟩] 100 = some m ∧
      (∃ e ∈ [IndexEntry.mk 100 "c" 0 ⟨false, some 100⟩,
              IndexEntry.mk 200 "d" 1 ⟨false, some 200⟩],
        m.convId = e.convId ∧ m.msgIdx = e.msgIdx ∧ m.msg = e.msg ∧
        |m.diff| = |e.ts - 160|) ∧
      (∀ e ∈ [IndexEntry.mk 100 "c" 0 ⟨false, some 100⟩,
              IndexEntry.mk 200 "d" 1 ⟨false, some 200⟩], |m.diff| ≤ |e.ts - 160|) ∧
      (0 < (100 : Int) → (∃ e ∈ [IndexEntry.mk 100 "c" 0 ⟨false, some 100⟩,
              IndexEntry.mk 200 "d" 1 ⟨false, some 200⟩], e.ts = 160) → m.diff = 0) :=
  find_closest_min_abs_diff
    [⟨100, "c", 0, ⟨false, some 100⟩⟩, ⟨200, "d", 1, ⟨false, some 200⟩⟩] 160 100
    (by decide) (by decide)

/-- C5: on a sorted index, when every entry is strictly farther than the
threshold from the query (the empty index included), the function returns
none. -/
theorem find_closest_none_beyond_threshold (index : List IndexEntry) (q T : Int)
    (hsort : List.Sorted (fun a b : IndexEntry => a.ts ≤ b.ts) index)
    (hall : ∀ e ∈ index, T < |e.ts - q|) :
    find_closest_message_binary q index T = none := by
  by_cases hie : index.isEmpty = true
  · unfold find_closest_message_binary
    rw [if_pos hie]
  · cases hcands : fcCandidates q index T with
    | nil =>
      unfold find_closest_message_binary
      rw [if_neg hie, hcands]
    | cons c cs =>
      exfalso
      obtain ⟨e, he, _, _, _, _, ht⟩ :=
        fcCandidates_sound hsort c (hcands ▸ List.mem_cons_self c cs)
      exact absurd ht (not_le.mpr (hall e he))

theorem find_closest_none_beyond_threshold_witness :
    find_closest_message_binary 200 [⟨100, "c", 0, ⟨false, some 100⟩⟩] 50 = none :=
  find_closest_none_beyond_threshold [⟨100, "c", 0, ⟨false, some 100⟩⟩] 200 50
    (by decide) (by decide)

/-- C9: the threshold comparison is inclusive: when some entry lies at
exactly the threshold distance and no entry lies closer, the function
returns a match (rather than none) whose absolute difference is exactly
the threshold. -/
theorem inclusive_threshold_boundary (index : List IndexEntry) (q T : Int)
    (hsort : List.Sorted (fun a b : IndexEntry => a.ts ≤ b.ts) index)
    (hex : ∃ e ∈ index, |e.ts - q| = T)
    (hmin : ∀ e ∈ index, T ≤ |e.ts - q|) :
    ∃ m, find_closest_message_binary q index T = some m ∧ |m.diff| = T := by
  obtain ⟨e0, he0, ht0⟩ := hex
  obtain ⟨m, hm, ⟨e', he', _, _, _, hd', ht'⟩, _⟩ :=
    find_closest_some_spec hsort ⟨e0, he0, le_of_eq ht0⟩
  refine ⟨m, hm, le_antisymm ?_ ?_⟩
  · rw [hd']
    exact ht'
  · rw [hd']
    exact hmin e' he'

theorem inclusive_threshold_boundary_witness :
    ∃ m, find_closest_message_binary 110 [⟨100, "c", 0, ⟨false, some 100⟩⟩] 10 = some m ∧
      |m.diff| = 10 :=
  inclusive_threshold_boundary [⟨100, "c", 0, ⟨false, some 100⟩⟩] 110 10
    (by decide) (by decide) (by decide)

/-! ### The batch matcher -/

theorem dictInsert_mem {V : Type} {k : String} {v : V} {x : String × V} :
    ∀ {l : List (String × V)}, x ∈ dictInsert k v l → x = (k, v) ∨ x ∈ l := by
  intro l
  induction l with
  | nil =>
    intro h
    simp only [dictInsert] at h
    rcases List.mem_cons.mp h with h | h
    · exact Or.inl h
    · simp at h
  | cons p rest ih =>
    obtain ⟨k', v'⟩ := p
    intro h
    simp only [dictInsert] at h
    split at h
    · rename_i hk
      rcases List.mem_cons.mp h with h | h
      · exact Or.inl (by rw [h, hk])
      · exact Or.inr (List.mem_cons_of_mem _ h)
    · rcases List.mem_cons.mp h with h | h
      · exact Or.inr (h ▸ List.mem_cons_self _ _)
      · rcases ih h with h | h
        · exact Or.inl h
        · exact Or.inr (List.mem_cons_of_mem _ h)

/-- Membership in the candidates list yields the underlying index entry,
with no sortedness assumption. -/
theorem fcCandidates_mem_entry {index : List IndexEntry} {q T : Int} :
    ∀ c ∈ fcCandidates q index T,
      ∃ e ∈ index, c.convId = e.convId ∧ c.msgIdx = e.msgIdx ∧ c.msg = e.msg := by
  intro c hc
  rw [fcCandidates_eq] at hc
  rcases List.mem_append.mp hc with hc | hc
  · obtain ⟨e, he, rfl⟩ := List.mem_map.mp hc
    have hmem : e ∈ index := by
      have h1 := (List.takeWhile_prefix _).subset he
      rw [List.mem_reverse] at h1
      exact List.take_subset _ _ h1
    exact ⟨e, hmem, rfl, rfl, rfl⟩
  · obtain ⟨e, he, rfl⟩ := List.mem_map.mp hc
    exact ⟨e, List.drop_subset _ _ ((List.takeWhile_prefix _).subset he), rfl, rfl, rfl⟩

/-- A returned match always names an entry of the index it was queried
against. -/
theorem find_closest_entry {index : List IndexEntry} {q T : Int} {m : MatchResult}
    (h : find_closest_message_binary q index T = some m) :
    ∃ e ∈ index, m.convId = e.convId ∧ m.msgIdx = e.msgIdx ∧ m.msg = e.msg := by
  unfold find_closest_message_binary at h
  split at h
  · exact absurd h (by simp)
  · split at h
    · exact absurd h (by simp)
    · rename_i c cs heq
      injection h with h
      subst h
      exact fcCandidates_mem_entry _ (heq ▸ pickMin_mem cs c)

theorem matchStep_mem {index : List IndexEntry} {T : Int}
    {acc : List (String × String × Nat × Int)} {f : String × Option Int}
    {x : String × String × Nat × Int} :
    x ∈ matchStep index T acc f →
      x ∈ acc ∨ ∃ t m, find_closest_message_binary t index T = some m ∧
        x.2 = (m.convId, m.msgIdx, m.diff) := by
  unfold matchStep
  split
  · exact fun h => Or.inl h
  · rename_i t heqt
    split
    · exact fun h => Or.inl h
    · split
      · rename_i m hm
        intro h
        rcases dictInsert_mem h with h | h
        · exact Or.inr ⟨t, m, hm, by rw [h]⟩
        · exact Or.inl h
      · exact fun h => Or.inl h

theorem match_fold_mem {index : List IndexEntry} {T : Int} :
    ∀ (files : List (String × Option Int)) (acc : List (String × String × Nat × Int))
      (x : String × String × Nat × Int),
      x ∈ files.foldl (matchStep index T) acc →
      x ∈ acc ∨ ∃ t m, find_closest_message_binary t index T = some m ∧
        x.2 = (m.convId, m.msgIdx, m.diff) := by
  intro files
  induction files with
  | nil => intro acc x h; exact Or.inl h
  | cons f rest ih =>
    intro acc x h
    rw [List.foldl_cons] at h
    rcases ih _ x h with h | h
    · exact matchStep_mem h
    · exact Or.inr h

/-- C3 counterexample: one batch call of match_mp4_timestamps over two
files carrying the same extracted timestamp and a corpus with a single
message assigns the same (conversation_id, message_index) pair, namely
("c", 0), to the two distinct files, so the returned mapping is not
injective on message coordinates within one batch. -/
theorem duplicate_message_assignment_cex :
    match_mp4_timestamps [("a", some 100), ("b", some 100)]
        [("c", [⟨false, some 100⟩])] 10 =
      [("a", ("c", 0, 0)), ("b", ("c", 0, 0))] ∧
    ("a" : String) ≠ "b" := by
  constructor
  · rfl
  · decide

/-- C3 (amended): within one batch call, every assignment of the returned
mapping names a message that exists in the corpus at the recorded
conversation and index and whose matched_media_files marker is unset
(messages already carrying media are excluded from the candidate pool);
the same message may however be assigned to several distinct files within
the batch, and per-message uniqueness is only maintained across batches by
setting the marker between calls. -/
theorem match_assigns_eligible_messages
    (files : List (String × Option Int)) (messages : List (String × List Message))
    (T : Int) (name c : String) (i : Nat) (d : Int)
    (hmem : (name, (c, i, d)) ∈ match_mp4_timestamps files messages T) :
    ∃ p ∈ messages, p.1 = c ∧
      ∃ m, p.2.get? i = some m ∧ m.matchedMediaFiles = false := by
  simp only [match_mp4_timestamps] at hmem
  split at hmem
  · simp at hmem
  · rcases match_fold_mem files [] _ hmem with h | ⟨t, m, hm, hx⟩
    · simp at h
    · simp only [Prod.mk.injEq] at hx
      obtain ⟨hc, hi, _⟩ := hx
      obtain ⟨e, he, h1, h2, h3⟩ := find_closest_entry hm
      obtain ⟨p, hp, hce⟩ := mem_build_index.mp he
      obtain ⟨hcid, hflag, j, hj, hgj⟩ := collectEligible_mem 0 p.2 hce
      refine ⟨p, hp, ?_, e.msg, ?_, hflag⟩
      · rw [hc, h1, hcid]
      · rw [hi, h2, hj]
        simpa using hgj

theorem match_assigns_eligible_messages_witness :
    ∃ p ∈ [(("c" : String), [Message.mk false (some 100)])], p.1 = "c" ∧
      ∃ m, p.2.get? 0 = some m ∧ m.matchedMediaFiles = false :=
  match_assigns_eligible_messages [("a", some 100), ("b", some 100)]
    [("c", [⟨false, some 100⟩])] 10 "a" "c" 0 0 (by decide)

end Phase1
